import Mathlib

/-!
Verification development for the vtypes package (daved/vtypes).

The Go source converts one textual token into a dynamically typed
destination reached through an arbitrary chain of pointers, and renders
such destinations back to text.  This file is a shallow embedding of the
package:

* raw text and Go byte/strings are modelled as `List Char`;
* the `strconv` parsing routines the package calls (`ParseBool`, `Atoi`,
  `ParseInt`, `ParseUint`, all with base 10) are modelled as executable
  functions on `List Char`;
* a destination handle (`val any` holding `*T`, `**T`, ...) is modelled by
  the inductive `DVal`, which records the storage reachable from the
  handle: each pointer layer is either nil (`ptrNil`, tagged with the
  shape of its pointee type so that allocation can build the zero value)
  or points to further storage (`ptr`);
* terminal storage is `TermVal`: the built-in scalar kinds handled by
  `hydrateValue`'s type switch, plus the hook capabilities
  (`TextMarshalUnmarshaler` as `codec`, `StringSetter` as `setter`,
  `OnSetFunc`/`OnSetBoolFunc` as `onsetS`/`onsetB`) and an `unsupported`
  terminal for types matching no case.  Hook behaviour is carried as a
  function field, mirroring the dynamic method value; a hook may mutate
  its receiver even when it fails, so the hook functions return the new
  state together with the optional error.

Floating point kinds (`*float32`, `*float64`) and `*time.Duration` are not
modelled: their text forms are produced by Go's shortest-float formatting
and by `time` package grammar, which are outside this embedding.

`Hydrate` in vtypes.go is `tempValue` (walk the pointer chain, allocating
a zero value for every nil layer met — `reflect.New` + `Set`), then
`hydrateValue` on the innermost pointer, then `assignThroughChain`.
Because `tempValue` already links every freshly allocated layer into the
chain with `current.Set(newVal)`, `assignThroughChain` only rewrites each
slot with the value it already holds; the model therefore represents the
walk by `matDepthTerm` (depth of the materialized chain plus the terminal
value, zero-filled where layers were nil) and rebuilds the final chain
with `ptrStack`.  Passing a nil pointer as the handle itself makes
`current.Set` panic on an unaddressable value; this is the `panicked`
outcome.
-/

namespace Vtypes

/-- One decimal digit as a character: code point 48 + d (only 0..9 are
ever used). -/
def digitChar (d : Nat) : Char :=
  Char.ofNat (48 + d)

/-- Numeric value of a decimal digit character, none for anything
outside the 0..9 range. -/
def digToNat (c : Char) : Option Nat :=
  if 48 ≤ c.toNat ∧ c.toNat ≤ 57 then some (c.toNat - 48) else none

/-- Accumulating base-10 digit scan: the digit-consuming loop of
`strconv.ParseUint` (base 10, no range check here). -/
def pdGo (acc : Nat) : List Char → Option Nat
  | [] => some acc
  | c :: cs =>
    match digToNat c with
    | some d => pdGo (acc * 10 + d) cs
    | none => none

/-- All-digits parse of a non-empty token, as `strconv` does for base 10:
empty input or any non-digit character is a syntax error. -/
def parseDigits (cs : List Char) : Option Nat :=
  if cs.isEmpty then none else pdGo 0 cs

/-- Decimal rendering of a natural number, fuel-indexed so that the
definition is structural and kernel-reducible. -/
def n2cAux : Nat → Nat → List Char
  | 0, _ => []
  | f + 1, n => if n < 10 then [digitChar n] else n2cAux f (n / 10) ++ [digitChar (n % 10)]

/-- Decimal rendering of a natural number (what `fmt.Sprint` prints for an
unsigned integer). -/
def natToChars (n : Nat) : List Char :=
  n2cAux (n + 1) n

/-- Decimal rendering of an integer (what `fmt.Sprint` prints for a signed
integer). -/
def intToChars (n : Int) : List Char :=
  if n < 0 then '-' :: natToChars n.natAbs else natToChars n.toNat

/-- Model of `strconv.ParseBool`: exactly the twelve canonical true/false
tokens are accepted. -/
def parseBool (s : List Char) : Option Bool :=
  if s = ['1'] ∨ s = ['t'] ∨ s = ['T'] ∨ s = ['T', 'R', 'U', 'E'] ∨
      s = ['t', 'r', 'u', 'e'] ∨ s = ['T', 'r', 'u', 'e'] then some true
  else if s = ['0'] ∨ s = ['f'] ∨ s = ['F'] ∨ s = ['F', 'A', 'L', 'S', 'E'] ∨
      s = ['f', 'a', 'l', 's', 'e'] ∨ s = ['F', 'a', 'l', 's', 'e'] then some false
  else none

/-- Model of `strconv.ParseUint(s, 10, b)` (`b = 64` for bitSize 0): no
sign characters, base-10 digits, value below `2 ^ b`. -/
def parseUintChars (b : Nat) (s : List Char) : Option Nat :=
  (parseDigits s).bind fun n => if n < 2 ^ b then some n else none

/-- Model of `strconv.ParseInt(s, 10, b)` (`b = 64` both for `Atoi` and
for bitSize 0): optional sign, base-10 digits, signed range check.  On the
negative side the magnitude may reach `2 ^ (b - 1)` exactly. -/
def parseIntChars (b : Nat) (s : List Char) : Option Int :=
  match s with
  | [] => none
  | c :: rest =>
    if c = '-' then
      (parseDigits rest).bind fun n => if n ≤ 2 ^ (b - 1) then some (-(n : Int)) else none
    else if c = '+' then
      (parseDigits rest).bind fun n => if n < 2 ^ (b - 1) then some ((n : Int)) else none
    else
      (parseDigits (c :: rest)).bind fun n => if n < 2 ^ (b - 1) then some ((n : Int)) else none

/-- The integer kinds of `hydrateValue`'s type switch:
`*int, *int8, *int16, *int32, *int64, *uint, *uint8, *uint16, *uint32,
*uint64`. -/
inductive NumKind where
  | i
  | i8
  | i16
  | i32
  | i64
  | u
  | u8
  | u16
  | u32
  | u64
deriving DecidableEq

/-- Bit width each kind is parsed with.  `*int` uses `strconv.Atoi`, and
`*int64`/`*uint`/`*uint64` pass bitSize 0; all of those mean 64 bits on
the 64-bit platforms the package targets. -/
def NumKind.bits : NumKind → Nat
  | .i8 => 8
  | .i16 => 16
  | .i32 => 32
  | .u8 => 8
  | .u16 => 16
  | .u32 => 32
  | _ => 64

/-- Whether the kind is parsed with `ParseInt` (signed) rather than
`ParseUint`. -/
def NumKind.signed : NumKind → Bool
  | .i => true
  | .i8 => true
  | .i16 => true
  | .i32 => true
  | .i64 => true
  | _ => false

/-- Parse a raw token for a given integer kind, exactly as the
corresponding `case` of `hydrateValue` does. -/
def parseNum (k : NumKind) (s : List Char) : Option Int :=
  if k.signed then parseIntChars k.bits s
  else (parseUintChars k.bits s).map Int.ofNat

/-- The `strconv` function named in the `*strconv.NumError` a failed parse
returns (the `Func` field). -/
inductive PFunc where
  | parseBoolFn
  | atoiFn
  | parseIntFn
  | parseUintFn
deriving DecidableEq

/-- Which `strconv` function reports the error for each integer kind. -/
def NumKind.pfunc : NumKind → PFunc
  | .i => .atoiFn
  | .i8 => .parseIntFn
  | .i16 => .parseIntFn
  | .i32 => .parseIntFn
  | .i64 => .parseIntFn
  | _ => .parseUintFn

/-- Terminal storage of a destination, one constructor per recognized
capability of `hydrateValue`'s type switch.  Hook capabilities carry
their behaviour as a function, standing for the dynamic method value:

* `codec`: a `TextMarshalUnmarshaler` receiver — `dec st raw` returns the
  (possibly partially mutated, as a hook may write before failing)
  new receiver state together with the optional error of `UnmarshalText`;
* `setter`: a `StringSetter` receiver, whose `String()` rendering is its
  state;
* `onsetS`/`onsetB`: `OnSetFunc` / `OnSetBoolFunc` values — plain
  functions, stateless, `none` meaning a nil error;
* `unsupported`: a terminal type matching no case (`default:` branch,
  `ErrTypeUnsupported`). -/
inductive TermVal where
  | str (s : List Char)
  | boolean (b : Bool)
  | num (k : NumKind) (n : Int)
  | codec (st : List Char) (dec : List Char → List Char → Option (List Char) × List Char)
      (enc : List Char → Except (List Char) (List Char))
  | setter (st : List Char) (setf : List Char → List Char → Option (List Char) × List Char)
  | onsetS (f : List Char → Option (List Char))
  | onsetB (f : Bool → Option (List Char))
  | unsupported

/-- Static shape of a pointee type, so that `reflect.New` can build its
zero value: `term z` is a terminal type whose zero value is `z`, `ptr t`
one more pointer layer. -/
inductive DType where
  | term (z : TermVal)
  | ptr (t : DType)

/-- Storage reachable from a destination handle.  `ptrNil ty` is a nil
pointer slot whose pointee type is `ty`; `ptr v` a pointer to storage
`v`; `term t` terminal storage. -/
inductive DVal where
  | term (t : TermVal)
  | ptrNil (ty : DType)
  | ptr (v : DVal)

/-- Number of pointer layers of a type shape. -/
def DType.depth : DType → Nat
  | .term _ => 0
  | .ptr t => t.depth + 1

/-- Terminal zero value of a type shape. -/
def DType.zeroTerm : DType → TermVal
  | .term z => z
  | .ptr t => t.zeroTerm

/-- The pointer-chain walk of `tempValue` (vtypes.go:66): follow pointers
inward, calling `reflect.New` + `Set` on every nil layer (which zero-fills
it, so nested layers start nil and get allocated in turn).  The result is
the depth of the fully materialized chain below the handle and the
terminal value it ends in (pre-existing, or the zero value when the
terminal storage was freshly allocated). -/
def matDepthTerm : DVal → Nat × TermVal
  | .term t => (0, t)
  | .ptrNil ty => (ty.depth + 1, ty.zeroTerm)
  | .ptr v =>
    let dt := matDepthTerm v
    (dt.1 + 1, dt.2)

/-- Rebuild a fully materialized chain of the given depth ending in the
given terminal. -/
def ptrStack : Nat → TermVal → DVal
  | 0, t => .term t
  | d + 1, t => .ptr (ptrStack d t)

/-- Whether the reachable storage still contains a nil pointer layer. -/
def hasNilD : DVal → Bool
  | .term _ => false
  | .ptrNil _ => true
  | .ptr v => hasNilD v

/-- Leaf causes of a conversion failure: a `*strconv.NumError` from a
scalar parse, `ErrTypeUnsupported`, or the error value returned by a
codec/setter/callback hook. -/
inductive LeafErr where
  | parseFail (fn : PFunc) (num : List Char)
  | typeUnsupported
  | hookFail (msg : List Char)

/-- `HydrateError` (the repository's error type): wraps the leaf cause
and records the original destination value, whose dynamic type is printed
in the message (`hydrate (type: %T): ...`). -/
structure HydrateError where
  child : LeafErr
  val : DVal

/-- `Error`, the uniform outer error (`vtype: ...`): every failure
`Hydrate` returns is `NewError(NewHydrateError(err, val))`. -/
structure VError where
  child : HydrateError

/-- Result of `Hydrate`: success or failure, each carrying the storage
reachable from the handle after the call (the code mutates the caller's
storage in place), or a reflect panic (`Set` on an unaddressable value,
reached when the handle itself is a nil pointer). -/
inductive HRes where
  | ok (dest : DVal)
  | fail (e : VError) (dest : DVal)
  | panicked

/-- `hydrateValue` (vtypes.go:98): parse `raw` for the terminal's kind and
assign on success.  Returns the optional leaf error (`none` = nil error)
together with the new terminal value; scalar terminals are unchanged on
failure, hook terminals take whatever state the hook left behind. -/
def hydrateValue (t : TermVal) (raw : List Char) : Option LeafErr × TermVal :=
  match t with
  | .str _ => (none, .str raw)
  | .boolean b =>
    match parseBool raw with
    | some b' => (none, .boolean b')
    | none => (some (.parseFail .parseBoolFn raw), .boolean b)
  | .num k n =>
    match parseNum k raw with
    | some n' => (none, .num k n')
    | none => (some (.parseFail k.pfunc raw), .num k n)
  | .codec st dec enc =>
    match dec st raw with
    | (none, st') => (none, .codec st' dec enc)
    | (some m, st') => (some (.hookFail m), .codec st' dec enc)
  | .setter st setf =>
    match setf st raw with
    | (none, st') => (none, .setter st' setf)
    | (some m, st') => (some (.hookFail m), .setter st' setf)
  | .onsetS f =>
    match f raw with
    | none => (none, .onsetS f)
    | some m => (some (.hookFail m), .onsetS f)
  | .onsetB f =>
    match parseBool raw with
    | none => (some (.parseFail .parseBoolFn raw), .onsetB f)
    | some b =>
      match f b with
      | none => (none, .onsetB f)
      | some m => (some (.hookFail m), .onsetB f)
  | .unsupported => (some .typeUnsupported, .unsupported)

/-- `Hydrate` (vtypes.go:43): `tempValue` walks the chain, allocating and
linking a zero value into every nil layer it meets; a non-pointer handle
is `ErrTypeUnsupported`; then `hydrateValue` runs on the innermost
pointer, and `assignThroughChain` rewrites each traversed slot with the
value it already holds (a no-op, since `tempValue` already linked the
fresh layers).  Every failure is wrapped as
`NewError(NewHydrateError(err, val))`. -/
def Hydrate (val : DVal) (raw : List Char) : HRes :=
  match val with
  | .ptrNil _ => .panicked
  | .term t => .fail ⟨⟨.typeUnsupported, .term t⟩⟩ (.term t)
  | .ptr inner =>
    let dt := matDepthTerm inner
    match hydrateValue dt.2 raw with
    | (none, t') => .ok (.ptr (ptrStack dt.1 t'))
    | (some leaf, t') => .fail ⟨⟨leaf, .ptr inner⟩⟩ (.ptr (ptrStack dt.1 t'))

/-!  The sequence wrapper `Slice` (slice.go).  Its `ptrValue` field holds
the original value — a slice, or a pointer chain ending in a slice — and
is modelled by `PChain`; slice storage distinguishes a nil slice (`none`)
from allocated backing storage (`some elems`), because `reflect.MakeSlice`
and `reflect.Append` allocate while a zero slice is nil.  Elements are
`DVal` shapes (the per-element `reflect.New(valType)` handle is one
pointer onto the element's zero value). -/

/-- The storage reachable from `Slice.ptrValue`: a pointer chain ending in
slice storage.  `ptrNil rest` is a nil pointer whose pointee type has
`rest` further pointer layers before the slice type. -/
inductive PChain where
  | term (elems : Option (List DVal))
  | ptrNil (rest : Nat)
  | ptr (v : PChain)

/-- Whether the chain contains a nil pointer layer. -/
def hasNilLayer : PChain → Bool
  | .term _ => false
  | .ptrNil _ => true
  | .ptr v => hasNilLayer v

/-- Read-only walk of the chain (the loop of `Slice.MarshalText`,
slice.go:89): `none` when a nil pointer layer is met, otherwise the slice
storage at the end. -/
def readChain : PChain → Option (Option (List DVal))
  | .term e => some e
  | .ptrNil _ => none
  | .ptr v => readChain v

/-- The allocating walk of `Slice.UnmarshalText` (slice.go:44): nil
layers below the top get `reflect.New` storage (zero-filled, so deeper
layers are allocated in turn and the slice starts nil).  Returns the
materialized depth and the slice storage found or created. -/
def matPC : PChain → Nat × Option (List DVal)
  | .term e => (0, e)
  | .ptrNil rest => (rest + 1, none)
  | .ptr v =>
    let de := matPC v
    (de.1 + 1, de.2)

/-- Rebuild a materialized chain of the given depth around slice
storage. -/
def pcStack : Nat → Option (List DVal) → PChain
  | 0, e => .term e
  | d + 1, e => .ptr (pcStack d e)

/-- `Slice` (slice.go:16).  The unused `TypeName` field is omitted.
`elemZero` is the zero `DVal` of the element type `valType`
(`v.Type().Elem()`), used by the per-chunk `reflect.New(valType)`. -/
structure Slice where
  ptrValue : PChain
  started : Bool
  SplitEach : Bool
  Separator : List Char
  NonAccum : Bool
  elemZero : DVal

/-- `MakeSlice` (slice.go:27): wraps the value with the default
separator. -/
def MakeSlice (p : PChain) (ez : DVal) : Slice :=
  ⟨p, false, false, [','], false, ez⟩

/-- The split delimiter chosen by `Slice.UnmarshalText` (slice.go:65):
`sep := s.Separator`, and the `if !s.SplitEach` branch assigns
`s.Separator` again, so the configured separator is used in both modes. -/
def chosenSep (s : Slice) : List Char :=
  if s.SplitEach then s.Separator else s.Separator

/-- `bytes.Split` scan, fuel-indexed to stay structural: at each position
either the separator is a prefix (end the chunk, skip it) or one
character is consumed.  `accRev` is the current chunk, reversed. -/
def goSplitAux : Nat → List Char → List Char → List Char → List (List Char)
  | 0, _, accRev, rest => [accRev.reverse ++ rest]
  | _ + 1, _, accRev, [] => [accRev.reverse]
  | f + 1, sep, accRev, c :: rest =>
    if List.isPrefixOf sep (c :: rest) then
      accRev.reverse :: goSplitAux f sep [] (List.drop sep.length (c :: rest))
    else
      goSplitAux f sep (c :: accRev) rest

/-- Model of `bytes.Split(text, sep)`: with an empty separator Go splits
after every rune; otherwise split on each leftmost occurrence. -/
def goSplit (sep text : List Char) : List (List Char) :=
  if sep = [] then text.map (fun c => [c]) else goSplitAux (text.length + 1) sep [] text

/-- The element produced for one chunk, when its conversion succeeds:
`reflect.New(valType)` then `Hydrate(item.Interface(), chunk)`, appending
`item.Elem()`. -/
def convElem (ez : DVal) (c : List Char) : Option DVal :=
  match Hydrate (.ptr ez) c with
  | .ok (.ptr v) => some v
  | _ => none

/-- Outcome of the chunk loop: finished, aborted on the first failing
chunk (carrying `Hydrate`'s wrapped error), or a reflect panic.  In each
non-panic case the slice storage accumulated so far is returned;
`reflect.Append` + `setValue` only write when an element is appended, so
untouched nil slice storage stays nil. -/
inductive LoopRes where
  | done (o : Option (List DVal))
  | failed (e : VError) (o : Option (List DVal))
  | panicked

/-- The chunk loop of `Slice.UnmarshalText` (slice.go:71): empty chunks
are skipped; each chunk is hydrated into a fresh element and appended on
success; the first failure aborts, keeping earlier appends. -/
def chunkLoop (ez : DVal) (o : Option (List DVal)) : List (List Char) → LoopRes
  | [] => .done o
  | c :: cs =>
    if c = [] then chunkLoop ez o cs
    else
      match Hydrate (.ptr ez) c with
      | .ok v => chunkLoop ez (some (o.getD [] ++ [match v with | .ptr e => e | w => w])) cs
      | .fail e _ => .failed e o
      | .panicked => .panicked

/-- Errors of `Slice.UnmarshalText`: the only failing return inside the
loop is `fmt.Errorf("slice: unmarshal text: %w", err)` around the
element's `Hydrate` error. -/
inductive SliceErr where
  | unmarshal (e : VError)

/-- Outcome of the chunk loop when `ptrValue` has no pointer layer at
all: `setValue` panics on the first successful append (`v.Elem()` of a
non-pointer), a failing chunk still returns its error first, and a text
of separators only (no non-empty chunk) completes without writing. -/
inductive BRes where
  | done
  | failed (e : VError)
  | panicked

/-- The chunk loop of `Slice.UnmarshalText` when `ptrValue` is a bare
slice: the first successful append reaches `setValue` and panics. -/
def bareLoop (ez : DVal) : List (List Char) → BRes
  | [] => .done
  | c :: cs =>
    if c = [] then bareLoop ez cs
    else
      match Hydrate (.ptr ez) c with
      | .ok _ => .panicked
      | .fail e _ => .failed e
      | .panicked => .panicked

/-- Result of `Slice.UnmarshalText`: the updated `Slice` on both success
and failure (the receiver's `started` flag and the caller's storage are
mutated in place), or a reflect panic. -/
inductive SRes where
  | ok (s : Slice)
  | err (e : SliceErr) (s : Slice)
  | panicked

/-- The state, if any, a result left behind. -/
def SRes.state? : SRes → Option Slice
  | .ok s => some s
  | .err _ s => some s
  | .panicked => none

/-- `Slice.UnmarshalText` (slice.go:35).  Empty text returns at once,
touching nothing.  Otherwise the chain walk materializes nil layers (a
nil `ptrValue` itself makes `Set` panic on an unaddressable value); when
`ptrValue` has no pointer layer at all, the first `setValue` call panics
on `v.Elem()` of a non-pointer.  Then: clear to a fresh empty slice
unless accumulating onto a started slice, set `started`, split on
`chosenSep`, and run the chunk loop. -/
def Slice.UnmarshalText (s : Slice) (text : List Char) : SRes :=
  if text = [] then .ok s
  else
    match s.ptrValue with
    | .ptrNil _ => .panicked
    | .term _ =>
      if !s.started || s.NonAccum then .panicked
      else
        match bareLoop s.elemZero (goSplit (chosenSep s) text) with
        | .done => .ok { s with started := true }
        | .failed er => .err (.unmarshal er) { s with started := true }
        | .panicked => .panicked
    | .ptr inner =>
      let de := matPC inner
      let e1 := if !s.started || s.NonAccum then some [] else de.2
      match chunkLoop s.elemZero e1 (goSplit (chosenSep s) text) with
      | .done o => .ok { s with ptrValue := .ptr (pcStack de.1 o), started := true }
      | .failed er o =>
        .err (.unmarshal er) { s with ptrValue := .ptr (pcStack de.1 o), started := true }
      | .panicked => .panicked

/-- Decimal text of one digit list joined by the separator
(`strings.Join`). -/
def joinSep (sep : List Char) : List (List Char) → List Char
  | [] => []
  | [x] => x
  | x :: xs => x ++ sep ++ joinSep sep xs

/-- What `fmt.Sprint` prints for a terminal value.  Struct and function
values print reflection-dependent text (struct field dumps, function
addresses) that has no shallow counterpart; those cases render as fixed
placeholder text and are never relied on by a theorem. -/
def termText : TermVal → List Char
  | .str s => s
  | .boolean b => if b then ['t', 'r', 'u', 'e'] else ['f', 'a', 'l', 's', 'e']
  | .num _ n => intToChars n
  | .codec st _ _ => '{' :: st ++ ['}']
  | .setter st _ => st
  | .onsetS _ => ['0', 'x', '?']
  | .onsetB _ => ['0', 'x', '?']
  | .unsupported => ['{', '}']

/-- What `fmt.Sprint` prints for a stored element value: terminal values
print their value; a nil pointer prints `<nil>`; a non-nil pointer prints
its address, which has no shallow counterpart (placeholder, never relied
on by a theorem). -/
def sprintDVal : DVal → List Char
  | .term t => termText t
  | .ptrNil _ => ['<', 'n', 'i', 'l', '>']
  | .ptr _ => ['0', 'x', '?']

/-- `Slice.MarshalText` (slice.go:87): walk the chain read-only, returning
nil text as soon as a nil pointer layer is met; a nil slice has length 0
and also renders empty; otherwise join the printed elements with the
configured separator.  The receiver is not written to. -/
def Slice.MarshalText (s : Slice) : Except SliceErr (List Char) :=
  match readChain s.ptrValue with
  | none => .ok []
  | some none => .ok []
  | some (some l) => .ok (joinSep s.Separator (l.map sprintDVal))

/-- Whether the handle's top-level dynamic value is a function
(`reflect.ValueOf(val).Kind() == reflect.Func`). -/
def isFuncVal : TermVal → Bool
  | .onsetS _ => true
  | .onsetB _ => true
  | _ => false

/-- The pointer-deref loop ending `DefaultValueText` (vtypes.go:308):
deref until non-pointer, an encountered nil renders empty, then
`fmt.Sprint` the value. -/
def sprintWalk : DVal → List Char
  | .term t => termText t
  | .ptrNil _ => []
  | .ptr v => sprintWalk v

/-- `DefaultValueText` (vtypes.go:285) on a destination handle: a handle
implementing `TextMarshalUnmarshaler` (a pointer to a codec terminal)
renders via `MarshalText` (an encode error renders as the error's
message); a handle implementing `fmt.Stringer` (a pointer to a setter
terminal) renders via `String()`; a top-level function value renders
empty; otherwise derefence and `fmt.Sprint`.  (`DefaultValueTexter` and
terminal `error` values are outside this model.) -/
def DefaultValueText (v : DVal) : List Char :=
  match v with
  | .ptr (.term (.codec st _ enc)) =>
    match enc st with
    | .ok t => t
    | .error m => m
  | .ptr (.term (.setter st _)) => st
  | .term t => if isFuncVal t then [] else termText t
  | .ptrNil _ => []
  | .ptr v' => sprintWalk v'

/-- The scalar kinds under the convert/render round-trip: text, boolean
and the ten integer kinds.  (`*float32`/`*float64`/`*time.Duration` are
outside the embedding, see the header.) -/
inductive ScalarKind where
  | strK
  | boolK
  | numK (k : NumKind)

/-- Zero terminal value of a scalar kind. -/
def zeroScalar : ScalarKind → TermVal
  | .strK => .str []
  | .boolK => .boolean false
  | .numK k => .num k 0

/-- A freshly constructed destination of a scalar kind: one pointer onto
zero-valued terminal storage (`new(T)`). -/
def freshDest (k : ScalarKind) : DVal :=
  .ptr (.term (zeroScalar k))

/-- The zero `DVal` of the element type `int` and stored `int` element
values, used by the concrete sequence destinations of the test
properties. -/
def intZero : DVal :=
  .term (.num .i 0)

/-- A stored `int` element holding `n`. -/
def intV (n : Int) : DVal :=
  .term (.num .i n)

/-- A chunk the loop does not abort on: empty (skipped) or its element
conversion succeeds. -/
def goodChunk (ez : DVal) (c : List Char) : Prop :=
  c = [] ∨ (convElem ez c).isSome

/-- The elements the loop appends for a run of chunks: empty chunks
contribute nothing, the others their converted element. -/
def goodVals (ez : DVal) (cs : List (List Char)) : List DVal :=
  cs.filterMap fun c => if c = [] then none else convElem ez c

/-- Slice storage after appending a run of elements: appending nothing
leaves the storage untouched (`setValue` only runs on an append), while
the first append materializes a nil slice. -/
def appendElems (o : Option (List DVal)) (vs : List DVal) : Option (List DVal) :=
  match vs with
  | [] => o
  | _ => some (o.getD [] ++ vs)

/-! Helper lemmas: decimal rendering parses back to the same number. -/

theorem digToNat_digitChar {d : Nat} (h : d < 10) : digToNat (digitChar d) = some d := by
  interval_cases d <;> rfl

theorem digitChar_ne_minus {d : Nat} (h : d < 10) : digitChar d ≠ '-' := by
  interval_cases d <;> decide

theorem digitChar_ne_plus {d : Nat} (h : d < 10) : digitChar d ≠ '+' := by
  interval_cases d <;> decide

theorem pdGo_append (a : Nat) (xs ys : List Char) :
    pdGo a (xs ++ ys) = (pdGo a xs).bind fun m => pdGo m ys := by
  induction xs generalizing a with
  | nil => rfl
  | cons c cs ih =>
    simp only [List.cons_append, pdGo]
    cases digToNat c with
    | none => rfl
    | some d => exact ih _

theorem pdGo_n2cAux (f : Nat) : ∀ n a, n < f →
    pdGo a (n2cAux f n) = some (a * 10 ^ (n2cAux f n).length + n) := by
  induction f with
  | zero => exact fun n a h => absurd h (Nat.not_lt_zero n)
  | succ f ih =>
    intro n a h
    by_cases h10 : n < 10
    · simp only [n2cAux, if_pos h10, pdGo, digToNat_digitChar h10, List.length_singleton]
      norm_num
    · simp only [n2cAux, if_neg h10]
      rw [pdGo_append, ih (n / 10) a (by omega), Option.some_bind]
      have hm10 : n % 10 < 10 := Nat.mod_lt n (by norm_num)
      simp only [pdGo, digToNat_digitChar hm10, List.length_append, List.length_singleton]
      congr 1
      have hdm : n / 10 * 10 + n % 10 = n := Nat.div_add_mod' n 10
      have hp : (10 : Nat) ^ ((n2cAux f (n / 10)).length + 1) =
          10 ^ (n2cAux f (n / 10)).length * 10 := pow_succ 10 _
      rw [hp]
      calc (a * 10 ^ (n2cAux f (n / 10)).length + n / 10) * 10 + n % 10
          = a * (10 ^ (n2cAux f (n / 10)).length * 10) + (n / 10 * 10 + n % 10) := by ring
        _ = a * (10 ^ (n2cAux f (n / 10)).length * 10) + n := by rw [hdm]

theorem n2cAux_ne_nil (f n : Nat) : n2cAux (f + 1) n ≠ [] := by
  simp only [n2cAux]
  by_cases h10 : n < 10
  · simp [if_pos h10]
  · simp [if_neg h10]

theorem parseDigits_natToChars (n : Nat) : parseDigits (natToChars n) = some n := by
  have hne := n2cAux_ne_nil n n
  have hpd := pdGo_n2cAux (n + 1) n 0 (Nat.lt_succ_self n)
  simp only [natToChars] at *
  simp only [parseDigits, List.isEmpty_eq_true, hne, if_neg hne, hpd, Nat.zero_mul, Nat.zero_add]
  simp [List.isEmpty_iff, hne]

theorem n2cAux_head (f : Nat) : ∀ n hd tl, n2cAux f n = hd :: tl → ∃ d, d < 10 ∧ hd = digitChar d := by
  induction f with
  | zero => intro n hd tl h; simp [n2cAux] at h
  | succ f ih =>
    intro n hd tl h
    simp only [n2cAux] at h
    by_cases h10 : n < 10
    · rw [if_pos h10] at h
      exact ⟨n, h10, (List.cons.injEq _ _ _ _ ▸ h).1.symm⟩
    · rw [if_neg h10] at h
      cases hx : n2cAux f (n / 10) with
      | nil =>
        rw [hx, List.nil_append] at h
        exact ⟨n % 10, Nat.mod_lt n (by norm_num), (List.cons.injEq _ _ _ _ ▸ h).1.symm⟩
      | cons c cs =>
        rw [hx, List.cons_append] at h
        obtain ⟨hc, _⟩ := List.cons.injEq _ _ _ _ ▸ h
        exact hc ▸ ih (n / 10) c cs hx

theorem natToChars_head (n : Nat) :
    ∃ hd tl, natToChars n = hd :: tl ∧ hd ≠ '-' ∧ hd ≠ '+' := by
  cases hx : natToChars n with
  | nil => exact absurd hx (n2cAux_ne_nil n n)
  | cons hd tl =>
    obtain ⟨d, hd10, hdc⟩ := n2cAux_head (n + 1) n hd tl hx
    exact ⟨hd, tl, rfl, hdc ▸ digitChar_ne_minus hd10, hdc ▸ digitChar_ne_plus hd10⟩

theorem parseUintChars_natToChars {b m : Nat} (h : m < 2 ^ b) :
    parseUintChars b (natToChars m) = some m := by
  simp [parseUintChars, parseDigits_natToChars, h]

theorem parseIntChars_intToChars {b : Nat} {z : Int}
    (hlo : -((2 : Int) ^ (b - 1)) ≤ z) (hhi : z < (2 : Int) ^ (b - 1)) :
    parseIntChars b (intToChars z) = some z := by
  have hcast : ((2 : Int) ^ (b - 1)) = ((2 ^ (b - 1) : Nat) : Int) := by push_cast; ring
  by_cases hz : z < 0
  · rw [intToChars, if_pos hz]
    show ((parseDigits (natToChars z.natAbs)).bind
        fun n => if n ≤ 2 ^ (b - 1) then some (-(n : Int)) else none) = some z
    rw [hcast] at hlo
    have habs : z.natAbs ≤ 2 ^ (b - 1) := by omega
    rw [parseDigits_natToChars, Option.some_bind, if_pos habs]
    congr 1
    omega
  · obtain ⟨hd, tl, heq, hm, hp⟩ := natToChars_head z.toNat
    rw [intToChars, if_neg hz, heq]
    simp only [parseIntChars, if_neg hm, if_neg hp, ← heq]
    rw [hcast] at hhi
    have hlt : z.toNat < 2 ^ (b - 1) := by omega
    rw [parseDigits_natToChars, Option.some_bind, if_pos hlt]
    congr 1
    omega

theorem digitsBranch_range {b : Nat} {t : List Char} {z : Int}
    (h : ((parseDigits t).bind fun n =>
        if n < 2 ^ (b - 1) then some ((n : Int)) else none) = some z) :
    -((2 : Int) ^ (b - 1)) ≤ z ∧ z < (2 : Int) ^ (b - 1) := by
  have hpos : (0 : Int) < (2 : Int) ^ (b - 1) := by positivity
  have hcast : ((2 : Int) ^ (b - 1)) = ((2 ^ (b - 1) : Nat) : Int) := by push_cast; ring
  cases hpd : parseDigits t with
  | none => rw [hpd, Option.none_bind] at h; exact absurd h (by simp)
  | some n =>
    rw [hpd, Option.some_bind] at h
    split at h
    · have hz := Option.some.inj h
      subst hz
      rename_i hr
      have hr' : ((n : Int)) < ((2 ^ (b - 1) : Nat) : Int) := by exact_mod_cast hr
      omega
    · exact absurd h (by simp)

theorem parseIntChars_range {b : Nat} {s : List Char} {z : Int}
    (h : parseIntChars b s = some z) :
    -((2 : Int) ^ (b - 1)) ≤ z ∧ z < (2 : Int) ^ (b - 1) := by
  have hpos : (0 : Int) < (2 : Int) ^ (b - 1) := by positivity
  have hcast : ((2 : Int) ^ (b - 1)) = ((2 ^ (b - 1) : Nat) : Int) := by push_cast; ring
  match s with
  | [] => simp [parseIntChars] at h
  | c :: rest =>
    simp only [parseIntChars] at h
    split at h
    · cases hpd : parseDigits rest with
      | none => rw [hpd, Option.none_bind] at h; exact absurd h (by simp)
      | some n =>
        rw [hpd, Option.some_bind] at h
        split at h
        · have hz := Option.some.inj h
          subst hz
          rename_i hr
          have hr' : ((n : Int)) ≤ ((2 ^ (b - 1) : Nat) : Int) := by exact_mod_cast hr
          omega
        · exact absurd h (by simp)
    · split at h
      · exact digitsBranch_range h
      · exact digitsBranch_range h

theorem parseUintChars_range {b : Nat} {s : List Char} {m : Nat}
    (h : parseUintChars b s = some m) : m < 2 ^ b := by
  simp only [parseUintChars] at h
  cases hpd : parseDigits s with
  | none => rw [hpd, Option.none_bind] at h; exact absurd h (by simp)
  | some n =>
    rw [hpd, Option.some_bind] at h
    split at h
    · have hz := Option.some.inj h
      subst hz
      rename_i hr
      exact hr
    · exact absurd h (by simp)

theorem parseNum_roundtrip {k : NumKind} {s : List Char} {n : Int}
    (h : parseNum k s = some n) : parseNum k (intToChars n) = some n := by
  by_cases hs : k.signed
  · simp only [parseNum, if_pos hs] at h ⊢
    obtain ⟨hlo, hhi⟩ := parseIntChars_range h
    exact parseIntChars_intToChars hlo hhi
  · simp only [parseNum, if_neg hs] at h ⊢
    cases hu : parseUintChars k.bits s with
    | none => rw [hu] at h; exact absurd h (by simp)
    | some m =>
      rw [hu] at h
      simp only [Option.map_some'] at h
      have hz := Option.some.inj h
      subst hz
      have hr := parseUintChars_range hu
      have hnn : ¬ (Int.ofNat m < 0) := not_lt.mpr (Int.ofNat_nonneg m)
      have htn : (Int.ofNat m).toNat = m := rfl
      rw [intToChars, if_neg hnn, htn, parseUintChars_natToChars hr]
      rfl

/-! Helper lemmas: shape of the storage `Hydrate` leaves behind, and the
accumulation behaviour of the chunk loop. -/

theorem hasNilD_ptrStack (d : Nat) (t : TermVal) : hasNilD (ptrStack d t) = false := by
  induction d with
  | zero => rfl
  | succ d ih => simpa [ptrStack, hasNilD] using ih

theorem ptrStack_matDepthTerm {v : DVal} (h : hasNilD v = false) :
    ptrStack (matDepthTerm v).1 (matDepthTerm v).2 = v := by
  induction v with
  | term t => rfl
  | ptrNil ty => simp [hasNilD] at h
  | ptr w ih =>
    simp only [hasNilD] at h
    simpa [matDepthTerm, ptrStack] using ih h

theorem Hydrate_ptr_cases (inner : DVal) (raw : List Char) :
    (∃ t', Hydrate (.ptr inner) raw = .ok (.ptr (ptrStack (matDepthTerm inner).1 t'))) ∨
    (∃ leaf t', Hydrate (.ptr inner) raw =
      .fail ⟨⟨leaf, .ptr inner⟩⟩ (.ptr (ptrStack (matDepthTerm inner).1 t'))) := by
  simp only [Hydrate]
  cases hv : hydrateValue (matDepthTerm inner).2 raw with
  | mk r t' =>
    cases r with
    | none => exact .inl ⟨t', rfl⟩
    | some leaf => exact .inr ⟨leaf, t', rfl⟩

theorem Hydrate_ptr_ne_panicked (inner : DVal) (raw : List Char) :
    Hydrate (.ptr inner) raw ≠ .panicked := by
  rcases Hydrate_ptr_cases inner raw with ⟨t', h⟩ | ⟨leaf, t', h⟩ <;> simp [h]

theorem convElem_eq_some {ez : DVal} {c : List Char} {v : DVal}
    (h : convElem ez c = some v) : Hydrate (.ptr ez) c = .ok (.ptr v) := by
  unfold convElem at h
  rcases Hydrate_ptr_cases ez c with ⟨t', hh⟩ | ⟨leaf, t', hh⟩
  · rw [hh] at h ⊢
    simp only [Option.some.injEq] at h
    rw [h]
  · rw [hh] at h
    simp at h

theorem convElem_eq_none {ez : DVal} {c : List Char}
    (h : convElem ez c = none) :
    ∃ e d, Hydrate (.ptr ez) c = .fail e d := by
  unfold convElem at h
  rcases Hydrate_ptr_cases ez c with ⟨t', hh⟩ | ⟨leaf, t', hh⟩
  · rw [hh] at h
    simp at h
  · exact ⟨_, _, hh⟩

theorem chunkLoop_extends (ez : DVal) (chunks : List (List Char)) :
    ∀ cur : List DVal, ∃ app : List DVal,
      chunkLoop ez (some cur) chunks = .done (some (cur ++ app)) ∨
      ∃ e, chunkLoop ez (some cur) chunks = .failed e (some (cur ++ app)) := by
  induction chunks with
  | nil => exact fun cur => ⟨[], .inl (by simp [chunkLoop])⟩
  | cons c cs ih =>
    intro cur
    by_cases hc : c = []
    · obtain ⟨app, hap⟩ := ih cur
      exact ⟨app, by simpa [chunkLoop, if_pos hc] using hap⟩
    · rcases Hydrate_ptr_cases ez c with ⟨t', hh⟩ | ⟨leaf, t', hh⟩
      · obtain ⟨app, hap⟩ := ih (cur ++ [ptrStack (matDepthTerm ez).1 t'])
        refine ⟨ptrStack (matDepthTerm ez).1 t' :: app, ?_⟩
        have hstep : chunkLoop ez (some cur) (c :: cs) =
            chunkLoop ez (some (cur ++ [ptrStack (matDepthTerm ez).1 t'])) cs := by
          simp [chunkLoop, if_neg hc, hh]
        rw [hstep]
        simpa [List.append_assoc] using hap
      · refine ⟨[], .inr ⟨⟨⟨leaf, .ptr ez⟩⟩, ?_⟩⟩
        simp [chunkLoop, if_neg hc, hh]

theorem goodVals_cons_nil (ez : DVal) (cs : List (List Char)) :
    goodVals ez ([] :: cs) = goodVals ez cs := by
  simp [goodVals]

theorem goodVals_cons_some {ez : DVal} {c : List Char} {v : DVal} (hc : c ≠ [])
    (h : convElem ez c = some v) (cs : List (List Char)) :
    goodVals ez (c :: cs) = v :: goodVals ez cs := by
  simp [goodVals, hc, h]

theorem appendElems_cons (o : Option (List DVal)) (v : DVal) (vs : List DVal) :
    appendElems o (v :: vs) = appendElems (some (o.getD [] ++ [v])) vs := by
  cases vs with
  | nil => simp [appendElems]
  | cons w ws => simp [appendElems, List.append_assoc]

theorem chunkLoop_first_fail (ez : DVal) :
    ∀ (good : List (List Char)) (o : Option (List DVal)) (bad : List Char)
      (rest : List (List Char)),
      (∀ c ∈ good, goodChunk ez c) → bad ≠ [] → convElem ez bad = none →
      ∃ e, chunkLoop ez o (good ++ bad :: rest) = .failed e (appendElems o (goodVals ez good)) := by
  intro good
  induction good with
  | nil =>
    intro o bad rest _ hbne hbad
    obtain ⟨e, d, hh⟩ := convElem_eq_none hbad
    refine ⟨e, ?_⟩
    simp [chunkLoop, if_neg hbne, hh, goodVals, appendElems]
  | cons c cs ih =>
    intro o bad rest hg hbne hbad
    have hgc : goodChunk ez c := hg c (by simp)
    have hgs : ∀ x ∈ cs, goodChunk ez x := fun x hx => hg x (by simp [hx])
    by_cases hc : c = []
    · subst hc
      obtain ⟨e, he⟩ := ih o bad rest hgs hbne hbad
      refine ⟨e, ?_⟩
      rw [List.cons_append, goodVals_cons_nil]
      simpa [chunkLoop] using he
    · rcases hgc with rfl | hsome
      · exact absurd rfl hc
      · obtain ⟨v, hv⟩ := Option.isSome_iff_exists.mp hsome
        have hh := convElem_eq_some hv
        obtain ⟨e, he⟩ := ih (some (o.getD [] ++ [v])) bad rest hgs hbne hbad
        refine ⟨e, ?_⟩
        rw [List.cons_append, goodVals_cons_some hc hv, appendElems_cons]
        simpa [chunkLoop, if_neg hc, hh] using he

theorem readChain_of_hasNil : ∀ {c : PChain}, hasNilLayer c = true → readChain c = none := by
  intro c
  induction c with
  | term e => intro h; simp [hasNilLayer] at h
  | ptrNil rest => intro _; rfl
  | ptr v ih => intro h; exact ih (by simpa [hasNilLayer] using h)

/-! The claims. -/

/-- Claim C1, amended: resolving the handle allocates storage for every
nil indirection layer eagerly, during the resolve walk itself — not after
the terminal conversion produced a value — so a conversion that fails
leaves the chain fully materialized (no layer is nil afterwards), with
the freshly allocated layers still attached. -/
theorem claim_C1 (inner : DVal) (raw : List Char) (e : VError) (d' : DVal)
    (h : Hydrate (.ptr inner) raw = .fail e d') :
    (∃ t', d' = .ptr (ptrStack (matDepthTerm inner).1 t')) ∧ hasNilD d' = false := by
  rcases Hydrate_ptr_cases inner raw with ⟨t', hh⟩ | ⟨leaf, t', hh⟩
  · rw [hh] at h
    exact absurd h (by simp)
  · rw [hh] at h
    injection h with h1 h2
    subst h2
    exact ⟨⟨t', rfl⟩, by simp [hasNilD, hasNilD_ptrStack]⟩

/-- Witness for C1 at a two-layer int destination with a nil inner layer
and an unparsable token. -/
theorem claim_C1_witness :
    (∃ t', DVal.ptr (.ptr (.term (.num .i 0))) =
      .ptr (ptrStack (matDepthTerm (.ptrNil (.term (.num .i 0)))).1 t')) ∧
    hasNilD (.ptr (.ptr (.term (.num .i 0)))) = false :=
  claim_C1 (.ptrNil (.term (.num .i 0))) ['x']
    ⟨⟨.parseFail .atoiFn ['x'], .ptr (.ptrNil (.term (.num .i 0)))⟩⟩
    (.ptr (.ptr (.term (.num .i 0)))) rfl

/-- Counterexample to C1 as stated: a destination whose inner layer is
nil, converted with the unparsable token `x`, fails — yet afterwards no
layer is nil: the layer that was nil before the call was allocated during
resolution and stays allocated. -/
theorem claim_C1_counterexample :
    Hydrate (.ptr (.ptrNil (.term (.num .i 0)))) ['x'] =
      .fail ⟨⟨.parseFail .atoiFn ['x'], .ptr (.ptrNil (.term (.num .i 0)))⟩⟩
        (.ptr (.ptr (.term (.num .i 0)))) ∧
    hasNilD (.ptr (.ptrNil (.term (.num .i 0)))) = true ∧
    hasNilD (.ptr (.ptr (.term (.num .i 0)))) = false :=
  ⟨rfl, rfl, rfl⟩

/-- Claim C2, amended: the split delimiter used in whole-token mode
(`SplitEach` false) is not a sentinel value but still the configured
separator — the branch that would pick a different delimiter assigns
`s.Separator` again — so a call appends one element per non-empty chunk
of the separator split, exactly as in per-token mode. -/
theorem claim_C2 (s : Slice) : chosenSep s = s.Separator :=
  ite_self s.Separator

/-- Counterexample to C2 as stated: a fresh int-sequence destination in
whole-token mode (`SplitEach` false, the `MakeSlice` default) converted
once with the non-empty token `1,2` appends two elements, 1 and 2 — not
the single element `1,2`. -/
theorem claim_C2_counterexample :
    Slice.UnmarshalText (MakeSlice (.ptr (.term none)) intZero) ['1', ',', '2'] =
      .ok ⟨.ptr (.term (some [intV 1, intV 2])), true, false, [','], false, intZero⟩ ∧
    ([intV 1, intV 2] : List DVal).length = 2 :=
  ⟨rfl, rfl⟩

/-- Claim C3: with accumulate mode (NonAccum false), the first non-empty
call clears whatever the destination held and appends the parsed
elements, the second call appends without clearing — `1,2` then `3`
yields elements 1, 2, 3 — and, in general, any call on a started
accumulating destination only ever extends the existing elements. -/
theorem claim_C3 :
    (∀ prior : List DVal,
      Slice.UnmarshalText (MakeSlice (.ptr (.term (some prior))) intZero) ['1', ',', '2'] =
        .ok ⟨.ptr (.term (some [intV 1, intV 2])), true, false, [','], false, intZero⟩) ∧
    (Slice.UnmarshalText
        ⟨.ptr (.term (some [intV 1, intV 2])), true, false, [','], false, intZero⟩ ['3'] =
      .ok ⟨.ptr (.term (some [intV 1, intV 2, intV 3])), true, false, [','], false, intZero⟩) ∧
    (∀ (ez : DVal) (cur : List DVal) (sep : List Char) (b : Bool) (t : List Char),
      ∃ app : List DVal,
        (Slice.UnmarshalText ⟨.ptr (.term (some cur)), true, b, sep, false, ez⟩ t).state? =
          some ⟨.ptr (.term (some (cur ++ app))), true, b, sep, false, ez⟩) := by
  refine ⟨fun prior => rfl, rfl, ?_⟩
  intro ez cur sep b t
  by_cases ht : t = []
  · subst ht
    exact ⟨[], by simp [Slice.UnmarshalText, SRes.state?]⟩
  · obtain ⟨app, hap⟩ := chunkLoop_extends ez
      (goSplit (chosenSep ⟨.ptr (.term (some cur)), true, b, sep, false, ez⟩) t) cur
    rcases hap with hdone | ⟨e, hfail⟩
    · exact ⟨app, by simp [Slice.UnmarshalText, if_neg ht, matPC, hdone, SRes.state?, pcStack]⟩
    · exact ⟨app, by simp [Slice.UnmarshalText, if_neg ht, matPC, hfail, SRes.state?, pcStack]⟩

/-- Claim C4: converting a sequence destination with the empty token is a
complete no-op — the very same state comes back: nothing is cleared,
`started` is untouched, and no storage (slice backing or nil layer) is
allocated. -/
theorem claim_C4 (s : Slice) : Slice.UnmarshalText s [] = .ok s :=
  rfl

/-- Claim C5: in a multi-element call, the first failing chunk aborts the
loop with that failure while elements appended for earlier chunks of the
same call remain; concretely, `1,x,3` on a fresh int-sequence destination
returns the wrapped parse failure for `x` and leaves exactly the element
1 appended. -/
theorem claim_C5 (ez : DVal) (o : Option (List DVal)) (good : List (List Char))
    (bad : List Char) (rest : List (List Char))
    (hg : ∀ c ∈ good, goodChunk ez c) (hbne : bad ≠ []) (hbad : convElem ez bad = none) :
    (∃ e, chunkLoop ez o (good ++ bad :: rest) =
      .failed e (appendElems o (goodVals ez good))) ∧
    Slice.UnmarshalText (MakeSlice (.ptr (.term none)) intZero) ['1', ',', 'x', ',', '3'] =
      .err (.unmarshal ⟨⟨.parseFail .atoiFn ['x'], .ptr intZero⟩⟩)
        ⟨.ptr (.term (some [intV 1])), true, false, [','], false, intZero⟩ :=
  ⟨chunkLoop_first_fail ez good o bad rest hg hbne hbad, rfl⟩

/-- Witness for C5 at the chunk run 1, x, 3 over int elements. -/
theorem claim_C5_witness :
    (∃ e, chunkLoop intZero (some []) ([['1']] ++ ['x'] :: [['3']]) =
      .failed e (appendElems (some []) (goodVals intZero [['1']]))) ∧
    Slice.UnmarshalText (MakeSlice (.ptr (.term none)) intZero) ['1', ',', 'x', ',', '3'] =
      .err (.unmarshal ⟨⟨.parseFail .atoiFn ['x'], .ptr intZero⟩⟩)
        ⟨.ptr (.term (some [intV 1])), true, false, [','], false, intZero⟩ :=
  claim_C5 intZero (some []) [['1']] ['x'] [['3']]
    (by
      intro c hc
      simp only [List.mem_singleton] at hc
      subst hc
      exact .inr rfl)
    (by simp)
    rfl

/-- Claim C6, amended: a destination whose terminal matches no recognized
capability fails with the wrapped `ErrTypeUnsupported` and no value is
written — the terminal storage is exactly as resolution left it — but nil
indirection layers are allocated during resolution and remain allocated;
only when no layer was nil is the destination returned exactly as it was
before the call. -/
theorem claim_C6 (inner : DVal) (raw : List Char)
    (h : (matDepthTerm inner).2 = .unsupported) :
    Hydrate (.ptr inner) raw =
      .fail ⟨⟨.typeUnsupported, .ptr inner⟩⟩
        (.ptr (ptrStack (matDepthTerm inner).1 .unsupported)) ∧
    (hasNilD inner = false →
      DVal.ptr (ptrStack (matDepthTerm inner).1 .unsupported) = .ptr inner) := by
  constructor
  · simp only [Hydrate, h, hydrateValue]
  · intro hnn
    have hst := ptrStack_matDepthTerm hnn
    rw [h] at hst
    rw [hst]

/-- Witness for C6 at a directly addressable unsupported terminal. -/
theorem claim_C6_witness :
    (Hydrate (.ptr (.term .unsupported)) ['x'] =
      .fail ⟨⟨.typeUnsupported, .ptr (.term .unsupported)⟩⟩
        (.ptr (ptrStack (matDepthTerm (.term .unsupported)).1 .unsupported)) ∧
    (hasNilD (.term .unsupported) = false →
      DVal.ptr (ptrStack (matDepthTerm (.term .unsupported)).1 .unsupported) =
        .ptr (.term .unsupported))) :=
  claim_C6 (.term .unsupported) ['x'] rfl

/-- Counterexample to C6 as stated: an unsupported destination behind a
nil indirection layer returns the unsupported-type failure, but the
destination is not left unmutated — the nil layer has been allocated. -/
theorem claim_C6_counterexample :
    Hydrate (.ptr (.ptrNil (.term .unsupported))) ['x'] =
      .fail ⟨⟨.typeUnsupported, .ptr (.ptrNil (.term .unsupported))⟩⟩
        (.ptr (.ptr (.term .unsupported))) ∧
    hasNilD (.ptr (.ptrNil (.term .unsupported))) = true ∧
    hasNilD (.ptr (.ptr (.term .unsupported))) = false :=
  ⟨rfl, rfl, rfl⟩

/-- Claim C7: for every modelled scalar kind, converting a raw token into
a fresh destination and rendering the destination yields text that,
converted into a fresh destination of the same kind, reproduces the same
destination value (convert/render round-trip). -/
theorem claim_C7 (k : ScalarKind) (raw : List Char) (d : DVal)
    (h : Hydrate (freshDest k) raw = .ok d) :
    Hydrate (freshDest k) (DefaultValueText d) = .ok d := by
  cases k with
  | strK =>
    have hs : Hydrate (freshDest .strK) raw = .ok (.ptr (.term (.str raw))) := rfl
    rw [hs] at h
    injection h with h1
    subst h1
    exact hs
  | boolK =>
    cases hpb : parseBool raw with
    | none =>
      have hb : Hydrate (freshDest .boolK) raw =
          .fail ⟨⟨.parseFail .parseBoolFn raw, freshDest .boolK⟩⟩ (freshDest .boolK) := by
        simp [Hydrate, freshDest, zeroScalar, matDepthTerm, hydrateValue, hpb, ptrStack]
      rw [hb] at h
      exact absurd h (by simp)
    | some b =>
      have hb : Hydrate (freshDest .boolK) raw = .ok (.ptr (.term (.boolean b))) := by
        simp [Hydrate, freshDest, zeroScalar, matDepthTerm, hydrateValue, hpb, ptrStack]
      rw [hb] at h
      injection h with h1
      subst h1
      cases b <;> rfl
  | numK nk =>
    cases hpn : parseNum nk raw with
    | none =>
      have hn : Hydrate (freshDest (.numK nk)) raw =
          .fail ⟨⟨.parseFail nk.pfunc raw, freshDest (.numK nk)⟩⟩ (freshDest (.numK nk)) := by
        simp [Hydrate, freshDest, zeroScalar, matDepthTerm, hydrateValue, hpn, ptrStack]
      rw [hn] at h
      exact absurd h (by simp)
    | some n =>
      have hn : Hydrate (freshDest (.numK nk)) raw = .ok (.ptr (.term (.num nk n))) := by
        simp [Hydrate, freshDest, zeroScalar, matDepthTerm, hydrateValue, hpn, ptrStack]
      rw [hn] at h
      injection h with h1
      subst h1
      have hdvt : DefaultValueText (.ptr (.term (.num nk n))) = intToChars n := rfl
      rw [hdvt]
      have hrt := parseNum_roundtrip hpn
      simp [Hydrate, freshDest, zeroScalar, matDepthTerm, hydrateValue, hrt, ptrStack]

/-- Witness for C7 at the int kind with the token 42. -/
theorem claim_C7_witness :
    Hydrate (freshDest (.numK .i)) (DefaultValueText (.ptr (.term (.num .i 42)))) =
      .ok (.ptr (.term (.num .i 42))) :=
  claim_C7 (.numK .i) ['4', '2'] (.ptr (.term (.num .i 42))) rfl

/-- Claim C8: a three-layer indirection destination that is entirely
uninitialized (the handle points at a nil three-level pointer), converted
with 42, ends with all three layers allocated and the innermost value
equal to 42. -/
theorem claim_C8 :
    Hydrate (.ptr (.ptrNil (.ptr (.ptr (.term (.num .i 0)))))) ['4', '2'] =
      .ok (.ptr (.ptr (.ptr (.ptr (.term (.num .i 42)))))) :=
  rfl

/-- Claim C9: every failure `Hydrate` returns, from whichever branch, is
the uniform wrap `NewError(NewHydrateError(leaf, val))`: the caller can
unwrap to the leaf cause and always recovers the original destination
value (hence its type identity) from the wrapper. -/
theorem claim_C9 (val : DVal) (raw : List Char) (e : VError) (d' : DVal)
    (h : Hydrate val raw = .fail e d') :
    e.child.val = val ∧ ∃ leaf, e = ⟨⟨leaf, val⟩⟩ := by
  cases val with
  | ptrNil ty => exact absurd h (by simp [Hydrate])
  | term t =>
    simp only [Hydrate] at h
    injection h with h1 h2
    subst h1
    exact ⟨rfl, ⟨.typeUnsupported, rfl⟩⟩
  | ptr inner =>
    rcases Hydrate_ptr_cases inner raw with ⟨t', hh⟩ | ⟨leaf, t', hh⟩
    · rw [hh] at h
      exact absurd h (by simp)
    · rw [hh] at h
      injection h with h1 h2
      subst h1
      exact ⟨rfl, ⟨leaf, rfl⟩⟩

/-- Witness for C9 at a non-pointer handle, the resolution-failure
branch. -/
theorem claim_C9_witness :
    (VError.mk ⟨.typeUnsupported, .term (.str [])⟩).child.val = .term (.str []) ∧
    ∃ leaf, VError.mk ⟨.typeUnsupported, .term (.str [])⟩ = ⟨⟨leaf, .term (.str [])⟩⟩ :=
  claim_C9 (.term (.str [])) [] ⟨⟨.typeUnsupported, .term (.str [])⟩⟩ (.term (.str [])) rfl

/-- Claim C10: rendering a sequence destination whose pointer chain
contains a nil layer returns empty text and no error; the model of
`MarshalText` is a pure function of the receiver, which the method never
writes to. -/
theorem claim_C10 (s : Slice) (h : hasNilLayer s.ptrValue = true) :
    Slice.MarshalText s = .ok [] := by
  unfold Slice.MarshalText
  rw [readChain_of_hasNil h]

/-- Witness for C10 at a destination whose chain is a nil pointer to a
slice. -/
theorem claim_C10_witness :
    Slice.MarshalText ⟨.ptrNil 0, false, false, [','], false, intZero⟩ = .ok [] :=
  claim_C10 ⟨.ptrNil 0, false, false, [','], false, intZero⟩ rfl

end Vtypes
